import Mathlib

/-!
Verification of the `lekh` terminal text editor's buffer core (`src/row.rs`,
`src/document.rs`, `src/highlight.rs`) against its natural-language
specification.

Modelling conventions:
* Rust `String`s are `List Char` (sequences of Unicode scalar values).
  Rust's `str::find`/`str::rfind` return byte offsets into UTF-8; since a
  valid UTF-8 needle can only match at a scalar-value boundary of a valid
  UTF-8 haystack, byte offsets of occurrences correspond one-to-one and
  monotonically to scalar (char) offsets, so the model uses char offsets
  throughout.  `usize` is `Nat` (the code uses saturating arithmetic where
  overflow could occur, and no value here approaches `2^64`).
* Grapheme segmentation (`unicode-segmentation`'s `graphemes(true)`) is
  modelled by `graphemes` below: UAX #29 extended grapheme clusters
  restricted to rules GB9/GB999 with the `Extend` property approximated by
  `isExtend` (the Combining Diacritical Marks block U+0300..U+036F, all
  `Extend` in the real property tables).  Rules GB3..GB5 (CR/LF/control),
  GB6..GB8 (Hangul), GB9a/GB9b (SpacingMark/Prepend), GB11 (ZWJ emoji) and
  GB12..GB13 (regional indicators) are not modelled, and the real `Extend`
  class is far larger than one block; the model is therefore exact only on
  text whose scalars are each either in U+0300..U+036F or of
  Grapheme_Cluster_Break class `Other` (e.g. printable ASCII,
  `isAsciiPrintable`).  Every concrete input below, and the hypothesis of
  the amended grapheme-invariant theorem, stays inside that domain.
* The external syntect highlighter is an opaque styling function
  `hl : List Char → List Char` (escape-sequence text per line); every
  theorem quantifies over it.  File I/O is modelled by passing file
  contents in (`Document.open'`) and returning written bytes out
  (`Document.save`), with a `Bool` for underlying write success.
* `Row::from` and `Document::open` are keywords in Lean, hence `Row.from'`
  and `Document.open'`.
-/

/-- Scalar values the model treats as having the UAX #29 `Extend` property:
the Combining Diacritical Marks block U+0300..U+036F.  This is a strict
subset of the real `Extend` class (which also holds e.g. U+0591); theorems
whose truth depends on segmentation being exact restrict their inputs to
scalars on which this approximation agrees with the full property data
(see `isAsciiPrintable`). -/
def isExtend (c : Char) : Bool := decide (0x300 ≤ c.toNat) && decide (c.toNat ≤ 0x36F)

/-- Helper for `graphemes`: `cur` is the reversed cluster being built
(nonempty), `rest` the remaining text.  A scalar with `Extend` joins the
current cluster (UAX #29 GB9), anything else starts a new one (GB999). -/
def graphemesAux : List Char → List Char → List (List Char)
  | cur, [] => [cur.reverse]
  | cur, c :: rest =>
    if isExtend c then graphemesAux (c :: cur) rest
    else cur.reverse :: graphemesAux [c] rest

/-- Extended grapheme clusters of a scalar sequence (model of
`UnicodeSegmentation::graphemes(true)`), restricted as described in the
header: only GB9 (no break before `Extend` per `isExtend`) and GB999
(break otherwise) are modelled, so every scalar outside U+0300..U+036F is
treated as cluster-initial.  Exact on text whose scalars are each in
U+0300..U+036F or of Grapheme_Cluster_Break class `Other`.  The first
cluster may be a degenerate run of `Extend` scalars. -/
def graphemes : List Char → List (List Char)
  | [] => []
  | c :: rest => graphemesAux [c] rest

/-- Search direction, from `src/editor.rs`. -/
inductive SearchDirection where
  | Forward
  | Backward
  deriving DecidableEq

/-- Cursor position, from `src/editor.rs` (`x` = column, `y` = line). -/
structure Position where
  x : Nat
  y : Nat
  deriving DecidableEq

/-- A buffer line, from `src/row.rs`: content, styled content, and the
cached grapheme count `len`. -/
structure Row where
  string : List Char
  highlighted : List Char
  len : Nat
  deriving DecidableEq

/-- `Row::default`. -/
def Row.default : Row := ⟨[], [], 0⟩

/-- `Row::from(st, highlighted)` (named `from'` because `from` is a Lean
keyword): the cached length is the grapheme count of the content. -/
def Row.from' (st highlighted : List Char) : Row :=
  ⟨st, highlighted, (graphemes st).length⟩

/-- The loop of `Row::insert`'s general path: walks the grapheme clusters
with their indices, emitting `c` in front of cluster `a` and counting one
per cluster plus one extra when index `a` is seen.  Returns the rebuilt
scalar sequence and the computed `length`. -/
def insertLoop (a : Nat) (c : Char) : Nat → List (List Char) → List Char × Nat
  | _, [] => ([], 0)
  | i, g :: gs =>
    let r := insertLoop a c (i + 1) gs
    if i = a then (c :: (g ++ r.1), r.2 + 2) else (g ++ r.1, r.2 + 1)

/-- `Row::insert(at, c)`: if `at >= len` (cached), push the scalar and bump
`len`; otherwise rebuild from the grapheme clusters via `insertLoop`. -/
def Row.insert (r : Row) (a : Nat) (c : Char) : Row :=
  if r.len ≤ a then { r with string := r.string ++ [c], len := r.len + 1 }
  else
    let p := insertLoop a c 0 (graphemes r.string)
    { r with string := p.1, len := p.2 }

/-- The loop of `Row::delete`: keeps every cluster except index `a`,
recounting the kept ones. -/
def deleteLoop (a : Nat) : Nat → List (List Char) → List Char × Nat
  | _, [] => ([], 0)
  | i, g :: gs =>
    let r := deleteLoop a (i + 1) gs
    if i = a then r else (g ++ r.1, r.2 + 1)

/-- `Row::delete(at)`: no-op if `at >= len` (cached), else drop cluster
`at` and recount. -/
def Row.delete (r : Row) (a : Nat) : Row :=
  if r.len ≤ a then r
  else
    let p := deleteLoop a 0 (graphemes r.string)
    { r with string := p.1, len := p.2 }

/-- `Row::append(next_row)`: concatenate contents, add cached lengths. -/
def Row.append (r next : Row) : Row :=
  { r with string := r.string ++ next.string, len := r.len + next.len }

/-- The loop of `Row::split`: clusters with index `< a` go to the kept
(left) part, the rest to the returned (right) part, each side counted. -/
def splitLoop (a : Nat) : Nat → List (List Char) → (List Char × Nat) × (List Char × Nat)
  | _, [] => (([], 0), ([], 0))
  | i, g :: gs =>
    let r := splitLoop a (i + 1) gs
    if i < a then ((g ++ r.1.1, r.1.2 + 1), r.2) else (r.1, (g ++ r.2.1, r.2.2 + 1))

/-- `Row::split(at)`: first component is the mutated receiver, second the
returned new `Row` (which clones the receiver's styled content). -/
def Row.split (r : Row) (a : Nat) : Row × Row :=
  let p := splitLoop a 0 (graphemes r.string)
  ({ r with string := p.1.1, len := p.1.2 },
   { string := p.2.1, highlighted := r.highlighted, len := p.2.2 })

/-- Boolean prefix test: `startsList pat hay` iff `pat` is a leading
segment of `hay` (model of Rust pattern matching at offset 0). -/
def startsList : List Char → List Char → Bool
  | [], _ => true
  | _ :: _, [] => false
  | a :: as, b :: bs => a = b && startsList as bs

/-- Model of Rust `str::find`: offset of the first occurrence of `pat` in
`hay` (char offsets, see header). -/
def strFind : List Char → List Char → Option Nat
  | [], pat => if startsList pat [] then some 0 else none
  | h :: t, pat =>
    if startsList pat (h :: t) then some 0 else (strFind t pat).map (· + 1)

/-- Model of Rust `str::rfind`: offset of the last occurrence of `pat` in
`hay`. -/
def strRfind : List Char → List Char → Option Nat
  | [], pat => if startsList pat [] then some 0 else none
  | h :: t, pat =>
    match strRfind t pat with
    | some i => some (i + 1)
    | none => if startsList pat (h :: t) then some 0 else none

/-- Start offsets of the clusters in a cluster list (model of the offsets
produced by `grapheme_indices(true)`). -/
def clusterOffsets : List (List Char) → List Nat
  | [] => []
  | g :: gs => 0 :: (clusterOffsets gs).map (· + g.length)

/-- The scan loop at the end of `Row::find`: first enumerated cluster whose
start offset equals `bi`. -/
def offsetLoop (bi : Nat) : Nat → List Nat → Option Nat
  | _, [] => none
  | i, o :: os => if bi = o then some i else offsetLoop bi (i + 1) os

/-- `Row::find(query, at, direction)` from `src/row.rs`: reconstruct the
grapheme window `[at, len)` (Forward) or `[0, at)` (Backward), run a raw
substring search on it, then map the matched offset back to a grapheme
index, returning `none` when the match does not start on a cluster
boundary. -/
def Row.find (r : Row) (query : List Char) (a : Nat) (d : SearchDirection) : Option Nat :=
  if r.len < a then none
  else
    let start := if d = SearchDirection.Forward then a else 0
    let stop := if d = SearchDirection.Forward then r.len else a
    let substring := (((graphemes r.string).drop start).take (stop - start)).flatten
    match (if d = SearchDirection.Forward then strFind substring query
           else strRfind substring query) with
    | none => none
    | some bi =>
      match offsetLoop bi 0 (clusterOffsets (graphemes substring)) with
      | some gi => some (start + gi)
      | none => none

example : Row.find (Row.from' ['a', 'b', 'a'] []) ['a'] 0 SearchDirection.Forward = some 0 := by decide
example : Row.find (Row.from' ['a', 'b', 'a'] []) ['a'] 1 SearchDirection.Forward = some 2 := by decide
example : Row.find (Row.from' ['a', 'b', 'a'] []) ['a'] 3 SearchDirection.Backward = some 2 := by decide
example : Row.find (Row.from' ['a', 'b', 'a'] []) ['a'] 2 SearchDirection.Backward = some 0 := by decide
example : Row.find (Row.from' ['x', Char.ofNat 0x301, 'x'] []) ['x'] 0 SearchDirection.Forward = some 0 := by decide
example : (Row.from' ['x', Char.ofNat 0x301, 'x'] []).len = 2 := by decide
example : ((Row.default.insert 0 'x').insert 1 (Char.ofNat 0x301)).len = 2 := by decide
example : (graphemes ((Row.default.insert 0 'x').insert 1 (Char.ofNat 0x301)).string).length = 1 := by decide

/-- Split a scalar sequence at every `'\n'`, keeping the pieces between
newlines; always nonempty (model of `str::split('\n')`). -/
def splitNL : List Char → List (List Char)
  | [] => [[]]
  | c :: rest =>
    if c = '\n' then [] :: splitNL rest
    else
      match splitNL rest with
      | [] => [[c]]
      | p :: ps => (c :: p) :: ps

/-- Drop one trailing `'\r'` if present (the CRLF handling inside Rust
`str::lines`). -/
def stripCR (l : List Char) : List Char :=
  if l.getLast? = some '\r' then l.dropLast else l

/-- The final piece of a newline split: dropped when empty (a trailing
newline yields no extra line), kept verbatim otherwise. -/
def lastPiece : List (List Char) → List (List Char)
  | [] => []
  | parts =>
    match parts.getLast? with
    | some [] => []
    | some l => [l]
    | none => []

/-- Model of Rust `str::lines` as used by `Document::open`: split on
`'\n'`, strip a `'\r'` preceding each `'\n'`, drop the empty piece after a
trailing newline, keep a final unterminated fragment (including any bare
trailing `'\r'`) as-is. -/
def rustLines (s : List Char) : List (List Char) :=
  ((splitNL s).dropLast.map stripCR) ++ lastPiece (splitNL s)

/-- Model of syntect's `LinesWithEndings` (used by
`Highlighter::highlight_contents`): like the split above but each
terminated line keeps its `'\n'`, nothing is stripped, and an empty input
yields no lines. -/
def linesWithEndings (s : List Char) : List (List Char) :=
  ((splitNL s).dropLast.map (fun l => l ++ ['\n'])) ++ lastPiece (splitNL s)

/-- `Highlighter::highlight_contents` (`src/highlight.rs`): one `Row` per
`LinesWithEndings` line; both the plain and the styled text have their last
character sliced off (`&line[..line.len() - 1]`), which removes the
trailing `'\n'` of a terminated line.  The styling itself comes from
syntect, modelled by the opaque per-line function `hl`. -/
def highlight_contents (hl : List Char → List Char) (contents : List Char) : List Row :=
  (linesWithEndings contents).map (fun line => Row.from' line.dropLast (hl line).dropLast)

/-- The text buffer, from `src/document.rs`.  The `highlight : Highlight`
field of the Rust struct only carries the external highlighter's state
(syntax/theme sets and the file name it was last given); that collaborator
is modelled by the `hl` parameter of the operations instead. -/
structure Document where
  rows : List Row
  highlighted_rows : List Row
  file_name : Option (List Char)
  dirty : Bool
  deriving DecidableEq

/-- `Document::default`. -/
def Document.default : Document := ⟨[], [], none, false⟩

/-- The document text reconstruction used by `Document::highlight` and the
byte sequence written by `Document::save`: every row's content followed by
`'\n'`. -/
def joinRows (rows : List Row) : List Char :=
  (rows.map (fun r => r.string ++ ['\n'])).flatten

/-- `Document::highlight` (private): regenerate `highlighted_rows` from the
reconstructed text.  The `assert_eq!(highlighted_rows.len(), rows.len())`
it performs is stated separately as `highlightAssert`. -/
def Document.highlight (hl : List Char → List Char) (d : Document) : Document :=
  { d with highlighted_rows := highlight_contents hl (joinRows d.rows) }

/-- The condition checked by the `assert_eq!` in `Document::highlight`:
the highlighter returned exactly one styled row per buffer row.  (The
count of `highlight_contents` output is the `linesWithEndings` line count,
for every styling function.) -/
def highlightAssert (rows : List Row) : Prop :=
  (linesWithEndings (joinRows rows)).length = rows.length

/-- `Document::open(filename)` (named `open'` because `open` is a Lean
keyword), with the file's decoded contents passed in: one `Row` per
`str::lines` line, a fresh highlight pass over the raw contents,
`dirty = false`.  Its `assert_eq!` is covered by claim C9's theorem. -/
def Document.open' (hl : List Char → List Char) (filename contents : List Char) : Document :=
  { rows := (rustLines contents).map (fun line => Row.from' line [])
  , highlighted_rows := highlight_contents hl contents
  , file_name := some filename
  , dirty := false }

/-- `Document::highlighted_row(index)`: the styled row paired with the
plain row's cached length, or `none` if either side is missing. -/
def Document.highlighted_row (d : Document) (index : Nat) : Option (Row × Nat) :=
  match d.rows.get? index, d.highlighted_rows.get? index with
  | some r, some hr => some (hr, r.len)
  | _, _ => none

/-- `Document::insert_newline(at)`: past-end line is a silent no-op; at
exactly the line count, push an empty row and return (without
re-highlighting); otherwise split the target row and insert the remainder
after it, then re-highlight. -/
def Document.insert_newline (hl : List Char → List Char) (d : Document) (pos : Position) : Document :=
  if d.rows.length < pos.y then d
  else
    let d' := { d with dirty := true }
    if pos.y = d'.rows.length then { d' with rows := d'.rows ++ [Row.default] }
    else
      let pr := (d'.rows.getD pos.y Row.default).split pos.x
      Document.highlight hl
        { d' with rows := (d'.rows.set pos.y pr.1).insertIdx (pos.y + 1) pr.2 }

/-- `Document::insert(at, c)`: past-end line is a silent no-op; at exactly
the line count, push a fresh row holding `c`; otherwise delegate to the
target row's `insert`; then re-highlight.  (The `getD` default is
unreachable: the Rust `unwrap` is guarded by `at.y < len`.) -/
def Document.insert (hl : List Char → List Char) (d : Document) (pos : Position) (c : Char) : Document :=
  if d.rows.length < pos.y then d
  else
    let d' := { d with dirty := true }
    if pos.y = d'.rows.length then
      Document.highlight hl { d' with rows := d'.rows ++ [Row.default.insert 0 c] }
    else
      Document.highlight hl
        { d' with rows := d'.rows.set pos.y ((d'.rows.getD pos.y Row.default).insert pos.x c) }

/-- `Document::delete(at)`: past-end line is a no-op; if the column equals
the target row's cached length and the target is not the last row, remove
the next row and append it to the target (join); otherwise delegate to the
target row's `delete`; then re-highlight. -/
def Document.delete (hl : List Char → List Char) (d : Document) (pos : Position) : Document :=
  if d.rows.length ≤ pos.y then d
  else
    let len := d.rows.length
    let d' := { d with dirty := true }
    if pos.x = (d.rows.getD pos.y Row.default).len ∧ pos.y < len - 1 then
      let next := d.rows.getD (pos.y + 1) Row.default
      Document.highlight hl
        { d' with rows := (d.rows.eraseIdx (pos.y + 1)).set pos.y
                            ((d.rows.getD pos.y Row.default).append next) }
    else
      Document.highlight hl
        { d' with rows := d.rows.set pos.y ((d.rows.getD pos.y Row.default).delete pos.x) }

/-- `Document::save()`: a no-op success when `file_name` is unset;
otherwise create/truncate the file and write `joinRows rows`, clearing
`dirty` — modelled with a `Bool` for the success of the underlying
filesystem writes.  Returns the updated document and either the written
bytes (`Except.ok (some bytes)`), the no-op success (`Except.ok none`), or
the propagated I/O error (`Except.error ()`, in-memory state untouched). -/
def Document.save (d : Document) (ok : Bool) : Document × Except Unit (Option (List Char)) :=
  match d.file_name with
  | none => (d, Except.ok none)
  | some _ =>
    if ok then ({ d with dirty := false }, Except.ok (some (joinRows d.rows)))
    else (d, Except.error ())

/-- The loop of `Document::find`: `fuel` is the iteration count
`end - start`; a missing row aborts with `none` (the code's `else return
None`), a per-line hit returns immediately, a miss advances the position
(next line / column 0 going forward, previous line / that line's length
going backward, with saturating arithmetic). -/
def findLoop (rows : List Row) (q : List Char) (dir : SearchDirection) :
    Nat → Position → Option Position
  | 0, _ => none
  | fuel + 1, pos =>
    match rows.get? pos.y with
    | none => none
    | some row =>
      match row.find q pos.x dir with
      | some x => some ⟨x, pos.y⟩
      | none =>
        if dir = SearchDirection.Forward then
          findLoop rows q dir fuel ⟨0, pos.y + 1⟩
        else
          findLoop rows q dir fuel ⟨((rows.get? (pos.y - 1)).getD Row.default).len, pos.y - 1⟩

/-- `Document::find(query, at, direction)` from `src/document.rs`. -/
def Document.find (d : Document) (q : List Char) (pos : Position) (dir : SearchDirection) :
    Option Position :=
  if d.rows.length ≤ pos.y then none
  else
    let start := if dir = SearchDirection.Forward then pos.y else 0
    let stop := if dir = SearchDirection.Forward then d.rows.length else pos.y + 1
    findLoop d.rows q dir (stop - start) ⟨pos.x, pos.y⟩

/-- Identity styling function, used to instantiate the opaque highlighter
in concrete examples. -/
def hlId : List Char → List Char := fun l => l

example : rustLines ['a', '\n', 'b'] = [['a'], ['b']] := by decide
example : rustLines ['a', '\r', '\n'] = [['a']] := by decide
example : rustLines ['a', '\r'] = [['a', '\r']] := by decide
example : rustLines [] = [] := by decide
example : linesWithEndings ['a', '\n', 'b'] = [['a', '\n'], ['b']] := by decide
example : linesWithEndings ['a', '\n', '\n'] = [['a', '\n'], ['\n']] := by decide
example : (Document.open' hlId ['f'] ['a', '\n']).rows = [Row.from' ['a'] []] := by decide
example :
    Document.find (Document.open' hlId ['f'] ['a', 'b', '\n', 'b', 'a', '\n'])
      ['b'] ⟨2, 0⟩ SearchDirection.Forward = some ⟨0, 1⟩ := by decide
example :
    Document.find (Document.open' hlId ['f'] ['a', 'b', '\n', 'b', 'a', '\n'])
      ['a'] ⟨1, 1⟩ SearchDirection.Backward = some ⟨0, 0⟩ := by decide

/-- All scalars of a sequence are outside the modelled `Extend` class. -/
def noExtend (s : List Char) : Bool := s.all (fun c => !(isExtend c))

theorem graphemesAux_flatten (rest : List Char) :
    ∀ cur, (graphemesAux cur rest).flatten = cur.reverse ++ rest := by
  induction rest with
  | nil => intro cur; simp [graphemesAux]
  | cons c rest ih =>
    intro cur
    by_cases h : isExtend c
    · simp [graphemesAux, h, ih]
    · simp [graphemesAux, h, ih]

/-- Cluster decomposition is a partition: flattening the clusters gives the
original scalar sequence back. -/
theorem graphemes_flatten (s : List Char) : (graphemes s).flatten = s := by
  cases s with
  | nil => rfl
  | cons c rest => simp [graphemes, graphemesAux_flatten]

theorem graphemesAux_noExtend (rest : List Char) (h : noExtend rest = true) :
    ∀ cur, graphemesAux cur rest = cur.reverse :: rest.map (fun c => [c]) := by
  induction rest with
  | nil => intro cur; simp [graphemesAux]
  | cons c rest ih =>
    intro cur
    simp only [noExtend, List.all_cons, Bool.and_eq_true, Bool.not_eq_true'] at h
    simp [graphemesAux, h.1, ih (by simpa [noExtend] using h.2)]

/-- Over `Extend`-free text every scalar is its own cluster. -/
theorem graphemes_noExtend (s : List Char) (h : noExtend s = true) :
    graphemes s = s.map (fun c => [c]) := by
  cases s with
  | nil => rfl
  | cons c rest =>
    simp only [noExtend, List.all_cons, Bool.and_eq_true] at h
    simp [graphemes, graphemesAux_noExtend rest (by simpa [noExtend] using h.2)]

theorem flatten_map_singleton (s : List Char) : (s.map (fun c => [c])).flatten = s := by
  induction s with
  | nil => rfl
  | cons c rest ih => simp [ih]

theorem insertLoop_gt (a : Nat) (c : Char) (gs : List (List Char)) :
    ∀ i, a < i → insertLoop a c i gs = (gs.flatten, gs.length) := by
  induction gs with
  | nil => intro i _; rfl
  | cons g gs ih =>
    intro i hi
    have hne : ¬ i = a := by omega
    simp [insertLoop, hne, ih (i + 1) (by omega)]

theorem insertLoop_le (a : Nat) (c : Char) (gs : List (List Char)) :
    ∀ i, i ≤ a →
      insertLoop a c i gs =
        ((gs.take (a - i)).flatten ++
           (if a - i < gs.length then c :: (gs.drop (a - i)).flatten
            else (gs.drop (a - i)).flatten),
         gs.length + if a - i < gs.length then 1 else 0) := by
  induction gs with
  | nil => intro i _; simp [insertLoop]
  | cons g gs ih =>
    intro i hi
    by_cases he : i = a
    · subst he
      simp [insertLoop, insertLoop_gt i c gs (i + 1) (by omega)]
    · have hk : a - i = (a - (i + 1)) + 1 := by omega
      have hrec := ih (i + 1) (by omega)
      by_cases hc : a - (i + 1) < gs.length
      · have hc' : a - i < (g :: gs).length := by simp; omega
        simp [insertLoop, he, hrec, hk, hc, hc']
      · have hc' : ¬ a - i < (g :: gs).length := by simp; omega
        simp [insertLoop, he, hrec, hk, hc, hc']

theorem deleteLoop_gt (a : Nat) (gs : List (List Char)) :
    ∀ i, a < i → deleteLoop a i gs = (gs.flatten, gs.length) := by
  induction gs with
  | nil => intro i _; rfl
  | cons g gs ih =>
    intro i hi
    have hne : ¬ i = a := by omega
    simp [deleteLoop, hne, ih (i + 1) (by omega)]

theorem deleteLoop_le (a : Nat) (gs : List (List Char)) :
    ∀ i, i ≤ a →
      deleteLoop a i gs =
        ((gs.take (a - i)).flatten ++ (gs.drop (a - i + 1)).flatten,
         (gs.take (a - i)).length + (gs.drop (a - i + 1)).length) := by
  induction gs with
  | nil => intro i _; simp [deleteLoop]
  | cons g gs ih =>
    intro i hi
    by_cases he : i = a
    · subst he
      simp [deleteLoop, deleteLoop_gt i gs (i + 1) (by omega)]
    · have hk : a - i = (a - (i + 1)) + 1 := by omega
      simp [deleteLoop, he, ih (i + 1) (by omega), hk]
      omega

theorem splitLoop_spec (a : Nat) (gs : List (List Char)) :
    ∀ i,
      splitLoop a i gs =
        (((gs.take (a - i)).flatten, (gs.take (a - i)).length),
         ((gs.drop (a - i)).flatten, (gs.drop (a - i)).length)) := by
  induction gs with
  | nil => intro i; simp [splitLoop]
  | cons g gs ih =>
    intro i
    by_cases hlt : i < a
    · have hk : a - i = (a - (i + 1)) + 1 := by omega
      simp [splitLoop, hlt, ih (i + 1), hk]
    · have h0 : a - i = 0 := by omega
      have h0' : ∀ j, i ≤ j → a - j = 0 := by omega
      have : splitLoop a (i + 1) (gs) =
          ((([] : List Char), 0), ((gs.flatten), gs.length)) := by
        simpa [h0' (i + 1) (by omega)] using ih (i + 1)
      simp [splitLoop, hlt, this, h0]

theorem noExtend_take (s : List Char) (n : Nat) (h : noExtend s = true) :
    noExtend (s.take n) = true := by
  simp only [noExtend, List.all_eq_true] at h ⊢
  exact fun x hx => h x (List.take_subset n s hx)

theorem noExtend_drop (s : List Char) (n : Nat) (h : noExtend s = true) :
    noExtend (s.drop n) = true := by
  simp only [noExtend, List.all_eq_true] at h ⊢
  exact fun x hx => h x (List.drop_subset n s hx)

theorem take_map_singleton (s : List Char) (a : Nat) :
    ((s.map (fun c => [c])).take a).flatten = s.take a := by
  induction s generalizing a with
  | nil => simp
  | cons c rest ih =>
    cases a with
    | zero => simp
    | succ a => simp [ih a]

theorem drop_map_singleton (s : List Char) (a : Nat) :
    ((s.map (fun c => [c])).drop a).flatten = s.drop a := by
  induction s generalizing a with
  | nil => simp
  | cons c rest ih =>
    cases a with
    | zero => simp [flatten_map_singleton]
    | succ a => simp [ih a]

/-- Well-formedness used for the amended grapheme invariant: the content is
`Extend`-free (so each scalar is one cluster) and the cached length is the
scalar count. -/
def rowInv (r : Row) : Prop := noExtend r.string = true ∧ r.len = r.string.length

theorem Row.insert_string_of_lt (r : Row) (a : Nat) (c : Char) (h : ¬ r.len ≤ a) :
    (r.insert a c).string = (insertLoop a c 0 (graphemes r.string)).1 := by
  unfold Row.insert
  rw [if_neg h]

theorem Row.insert_len_of_lt (r : Row) (a : Nat) (c : Char) (h : ¬ r.len ≤ a) :
    (r.insert a c).len = (insertLoop a c 0 (graphemes r.string)).2 := by
  unfold Row.insert
  rw [if_neg h]

theorem Row.delete_string_of_lt (r : Row) (a : Nat) (h : ¬ r.len ≤ a) :
    (r.delete a).string = (deleteLoop a 0 (graphemes r.string)).1 := by
  unfold Row.delete
  rw [if_neg h]

theorem Row.delete_len_of_lt (r : Row) (a : Nat) (h : ¬ r.len ≤ a) :
    (r.delete a).len = (deleteLoop a 0 (graphemes r.string)).2 := by
  unfold Row.delete
  rw [if_neg h]

theorem rowInv_insert (r : Row) (a : Nat) (c : Char) (hc : isExtend c = false)
    (h : rowInv r) : rowInv (r.insert a c) := by
  obtain ⟨h1, h2⟩ := h
  by_cases hle : r.len ≤ a
  · have hfast : r.insert a c = { r with string := r.string ++ [c], len := r.len + 1 } := by
      unfold Row.insert
      rw [if_pos hle]
    refine ⟨?_, ?_⟩ <;> simp [hfast, noExtend, List.all_append, hc]
    · simpa [noExtend] using h1
    · simpa using h2
  · have ha : a < r.string.length := by omega
    have hgs : graphemes r.string = r.string.map (fun c => [c]) := graphemes_noExtend _ h1
    have hlt : a < (graphemes r.string).length := by
      rw [hgs, List.length_map]; exact ha
    have hpair : insertLoop a c 0 (graphemes r.string)
        = (r.string.take a ++ c :: r.string.drop a, r.string.length + 1) := by
      rw [insertLoop_le a c (graphemes r.string) 0 (Nat.zero_le a)]
      simp only [Nat.sub_zero, if_pos hlt]
      rw [hgs, take_map_singleton, drop_map_singleton, List.length_map]
    refine ⟨?_, ?_⟩
    · rw [Row.insert_string_of_lt r a c hle, hpair]
      simp only [noExtend, List.all_append, List.all_cons, Bool.and_eq_true,
        Bool.not_eq_true']
      exact ⟨by simpa [noExtend] using noExtend_take _ a h1, hc,
        by simpa [noExtend] using noExtend_drop _ a h1⟩
    · rw [Row.insert_len_of_lt r a c hle, Row.insert_string_of_lt r a c hle, hpair]
      simp only [List.length_append, List.length_cons, List.length_take, List.length_drop]
      omega

theorem rowInv_delete (r : Row) (a : Nat) (h : rowInv r) : rowInv (r.delete a) := by
  obtain ⟨h1, h2⟩ := h
  by_cases hle : r.len ≤ a
  · have hfast : r.delete a = r := by
      unfold Row.delete
      rw [if_pos hle]
    exact ⟨by simpa [hfast] using h1, by simpa [hfast] using h2⟩
  · have ha : a < r.string.length := by omega
    have hgs : graphemes r.string = r.string.map (fun c => [c]) := graphemes_noExtend _ h1
    have hpair : deleteLoop a 0 (graphemes r.string)
        = (r.string.take a ++ r.string.drop (a + 1),
           (r.string.take a).length + (r.string.drop (a + 1)).length) := by
      rw [deleteLoop_le a (graphemes r.string) 0 (Nat.zero_le a)]
      simp only [Nat.sub_zero]
      rw [hgs, take_map_singleton, drop_map_singleton]
      simp [List.length_take, List.length_drop]
    refine ⟨?_, ?_⟩
    · rw [Row.delete_string_of_lt r a hle, hpair]
      simp only [noExtend, List.all_append, Bool.and_eq_true]
      exact ⟨by simpa [noExtend] using noExtend_take _ a h1,
        by simpa [noExtend] using noExtend_drop _ (a + 1) h1⟩
    · rw [Row.delete_len_of_lt r a hle, Row.delete_string_of_lt r a hle, hpair]
      simp only [List.length_append, List.length_take, List.length_drop]

/-- An editing operation on a single `Row` (the operations quantified over
by the grapheme-invariant claim). -/
inductive RowOp where
  | ins : Nat → Char → RowOp
  | del : Nat → RowOp

/-- Apply one `RowOp`. -/
def applyRowOp (r : Row) : RowOp → Row
  | RowOp.ins a c => r.insert a c
  | RowOp.del a => r.delete a

/-- Apply a sequence of `RowOp`s left to right. -/
def applyRowOps (r : Row) : List RowOp → Row
  | [] => r
  | op :: ops => applyRowOps (applyRowOp r op) ops

/-- Printable ASCII scalars U+0020..U+007E.  In the full UAX #29 property
data every one of these has Grapheme_Cluster_Break class `Other` — none is
CR, LF, another control, Extend, ZWJ, SpacingMark, Prepend, a regional
indicator or a Hangul jamo, and none is Extended_Pictographic — so none of
the break rules GB3..GB13 applies between any two of them, and under the
real `unicode-segmentation` exactly as under the model's `graphemes`,
every such scalar is a grapheme cluster of its own. -/
def isAsciiPrintable (c : Char) : Bool := decide (0x20 ≤ c.toNat) && decide (c.toNat ≤ 0x7E)

/-- All scalars of a sequence are printable ASCII. -/
def asciiOnly (s : List Char) : Bool := s.all isAsciiPrintable

theorem isAsciiPrintable_not_extend (c : Char) (h : isAsciiPrintable c = true) :
    isExtend c = false := by
  simp only [isAsciiPrintable, Bool.and_eq_true, decide_eq_true_eq] at h
  unfold isExtend
  rw [decide_eq_false (by omega : ¬ (0x300 ≤ c.toNat))]
  rfl

theorem asciiOnly_noExtend (s : List Char) (h : asciiOnly s = true) : noExtend s = true := by
  simp only [asciiOnly, noExtend, List.all_eq_true] at h ⊢
  intro c hc
  simp [isAsciiPrintable_not_extend c (h c hc)]

/-- Content shape of `Row::insert` on a well-formed `Extend`-free row:
append at or past the cached end, scalar insertion before index `a`
otherwise. -/
theorem Row.insert_string_shape (r : Row) (a : Nat) (c : Char)
    (h1 : noExtend r.string = true) (h2 : r.len = r.string.length) :
    (r.insert a c).string =
      if r.len ≤ a then r.string ++ [c] else r.string.take a ++ c :: r.string.drop a := by
  by_cases hle : r.len ≤ a
  · rw [if_pos hle]
    unfold Row.insert
    rw [if_pos hle]
  · rw [if_neg hle]
    have ha : a < r.string.length := by omega
    have hgs : graphemes r.string = r.string.map (fun c => [c]) := graphemes_noExtend _ h1
    have hlt : a < (graphemes r.string).length := by
      rw [hgs, List.length_map]
      exact ha
    have hpair : insertLoop a c 0 (graphemes r.string)
        = (r.string.take a ++ c :: r.string.drop a, r.string.length + 1) := by
      rw [insertLoop_le a c (graphemes r.string) 0 (Nat.zero_le a)]
      simp only [Nat.sub_zero, if_pos hlt]
      rw [hgs, take_map_singleton, drop_map_singleton, List.length_map]
    rw [Row.insert_string_of_lt r a c hle, hpair]

/-- Content shape of `Row::delete` on a well-formed `Extend`-free row:
no-op at or past the cached end, removal of scalar `a` otherwise. -/
theorem Row.delete_string_shape (r : Row) (a : Nat)
    (h1 : noExtend r.string = true) (_h2 : r.len = r.string.length) :
    (r.delete a).string =
      if r.len ≤ a then r.string else r.string.take a ++ r.string.drop (a + 1) := by
  by_cases hle : r.len ≤ a
  · rw [if_pos hle]
    unfold Row.delete
    rw [if_pos hle]
  · rw [if_neg hle]
    have hgs : graphemes r.string = r.string.map (fun c => [c]) := graphemes_noExtend _ h1
    have hpair : deleteLoop a 0 (graphemes r.string)
        = (r.string.take a ++ r.string.drop (a + 1),
           (r.string.take a).length + (r.string.drop (a + 1)).length) := by
      rw [deleteLoop_le a (graphemes r.string) 0 (Nat.zero_le a)]
      simp only [Nat.sub_zero]
      rw [hgs, take_map_singleton, drop_map_singleton]
      simp [List.length_take, List.length_drop]
    rw [Row.delete_string_of_lt r a hle, hpair]

/-- Well-formedness for the amended grapheme-invariant claim: printable
ASCII content with the cached length equal to the scalar count — which,
for such content, is the grapheme-cluster count under the model and under
full UAX #29 alike. -/
def rowInvA (r : Row) : Prop := asciiOnly r.string = true ∧ r.len = r.string.length

theorem rowInvA_insert (r : Row) (a : Nat) (c : Char) (hc : isAsciiPrintable c = true)
    (h : rowInvA r) : rowInvA (r.insert a c) := by
  obtain ⟨h1, h2⟩ := h
  have hne : noExtend r.string = true := asciiOnly_noExtend _ h1
  refine ⟨?_, (rowInv_insert r a c (isAsciiPrintable_not_extend c hc) ⟨hne, h2⟩).2⟩
  rw [Row.insert_string_shape r a c hne h2]
  by_cases hle : r.len ≤ a
  · rw [if_pos hle]
    simp only [asciiOnly, List.all_eq_true] at h1 ⊢
    intro x hx
    rcases List.mem_append.1 hx with hx | hx
    · exact h1 x hx
    · have hxc := List.mem_singleton.1 hx
      subst hxc
      exact hc
  · rw [if_neg hle]
    simp only [asciiOnly, List.all_eq_true] at h1 ⊢
    intro x hx
    rcases List.mem_append.1 hx with hx | hx
    · exact h1 x (List.take_subset a r.string hx)
    · rcases List.mem_cons.1 hx with hxc | hx
      · subst hxc
        exact hc
      · exact h1 x (List.drop_subset a r.string hx)

theorem rowInvA_delete (r : Row) (a : Nat) (h : rowInvA r) : rowInvA (r.delete a) := by
  obtain ⟨h1, h2⟩ := h
  have hne : noExtend r.string = true := asciiOnly_noExtend _ h1
  refine ⟨?_, (rowInv_delete r a ⟨hne, h2⟩).2⟩
  rw [Row.delete_string_shape r a hne h2]
  by_cases hle : r.len ≤ a
  · rw [if_pos hle]
    exact h1
  · rw [if_neg hle]
    simp only [asciiOnly, List.all_eq_true] at h1 ⊢
    intro x hx
    rcases List.mem_append.1 hx with hx | hx
    · exact h1 x (List.take_subset a r.string hx)
    · exact h1 x (List.drop_subset (a + 1) r.string hx)

/-- Side condition of the amended claim: inserted scalars are printable
ASCII — a class on which real UAX #29 segmentation and the model agree
that every scalar is a cluster of its own (deletes are unrestricted). -/
def rowOpOk : RowOp → Bool
  | RowOp.ins _ c => isAsciiPrintable c
  | RowOp.del _ => true

theorem rowInvA_applyRowOps (ops : List RowOp) (r : Row) (hops : ops.all rowOpOk = true)
    (h : rowInvA r) : rowInvA (applyRowOps r ops) := by
  induction ops generalizing r with
  | nil => exact h
  | cons op ops ih =>
    simp only [List.all_cons, Bool.and_eq_true] at hops
    cases op with
    | ins a c =>
      exact ih (r.insert a c) hops.2
        (rowInvA_insert r a c (by simpa [rowOpOk] using hops.1) h)
    | del a => exact ih (r.delete a) hops.2 (rowInvA_delete r a h)

/-- The claim C1 as stated is false: starting from `Row::default`, inserting
`'x'` and then the combining acute accent U+0301 (both through
`Row::insert`'s append fast path, which does `push` + `len += 1`) leaves
the cached `len` at 2 while the content `"x\u{301}"` is a single grapheme
cluster. -/
theorem c1_counterexample :
    ((Row.default.insert 0 'x').insert 1 (Char.ofNat 0x301)).len = 2 ∧
    (graphemes ((Row.default.insert 0 'x').insert 1 (Char.ofNat 0x301)).string).length = 1 := by
  decide

/-- Claim C1, amended: for every finite sequence of `Row::insert` /
`Row::delete` operations in which every inserted scalar is printable ASCII
(U+0020..U+007E — all of Grapheme_Cluster_Break class `Other`, so each is
a full grapheme cluster on its own and never merges with a neighbour under
UAX #29), applied to a `Row` whose content is printable ASCII and whose
cached `len` equals its grapheme-cluster count (e.g. `Row::default`, or
`Row::from` of such text), after every step the content is still printable
ASCII and the cached `len` equals the scalar count — which for
printable-ASCII text is the true UAX #29 grapheme-cluster count — and
hence the model's cluster count (every prefix of the sequence is itself
such a sequence). -/
theorem c1_theorem (ops : List RowOp) (r : Row) (hops : ops.all rowOpOk = true)
    (hascii : asciiOnly r.string = true) (hlen : r.len = (graphemes r.string).length) :
    asciiOnly (applyRowOps r ops).string = true ∧
    (applyRowOps r ops).len = (applyRowOps r ops).string.length ∧
    (applyRowOps r ops).len = (graphemes (applyRowOps r ops).string).length := by
  have h0 : rowInvA r := by
    refine ⟨hascii, ?_⟩
    rw [hlen, graphemes_noExtend _ (asciiOnly_noExtend _ hascii), List.length_map]
  have h := rowInvA_applyRowOps ops r hops h0
  refine ⟨h.1, h.2, ?_⟩
  rw [graphemes_noExtend _ (asciiOnly_noExtend _ h.1), List.length_map]
  exact h.2

/-- Witness for `c1_theorem` at a concrete input. -/
theorem c1_witness :
    ([RowOp.ins 0 'a', RowOp.ins 1 'b', RowOp.del 0].all rowOpOk = true) ∧
    (asciiOnly Row.default.string = true) ∧
    (Row.default.len = (graphemes Row.default.string).length) ∧
    (asciiOnly (applyRowOps Row.default
        [RowOp.ins 0 'a', RowOp.ins 1 'b', RowOp.del 0]).string = true ∧
      (applyRowOps Row.default [RowOp.ins 0 'a', RowOp.ins 1 'b', RowOp.del 0]).len =
        (applyRowOps Row.default [RowOp.ins 0 'a', RowOp.ins 1 'b', RowOp.del 0]).string.length ∧
      (applyRowOps Row.default [RowOp.ins 0 'a', RowOp.ins 1 'b', RowOp.del 0]).len =
        (graphemes (applyRowOps Row.default
          [RowOp.ins 0 'a', RowOp.ins 1 'b', RowOp.del 0]).string).length) :=
  ⟨by decide, by decide, by decide,
    c1_theorem [RowOp.ins 0 'a', RowOp.ins 1 'b', RowOp.del 0] Row.default
      (by decide) (by decide) (by decide)⟩

theorem Row.split_proj (r : Row) (a : Nat) :
    (r.split a).1.string = ((graphemes r.string).take a).flatten ∧
    (r.split a).1.len = ((graphemes r.string).take a).length ∧
    (r.split a).1.highlighted = r.highlighted ∧
    (r.split a).2.string = ((graphemes r.string).drop a).flatten ∧
    (r.split a).2.len = ((graphemes r.string).drop a).length := by
  have hs := splitLoop_spec a (graphemes r.string) 0
  simp only [Nat.sub_zero] at hs
  refine ⟨?_, ?_, ?_, ?_, ?_⟩
  · show (splitLoop a 0 (graphemes r.string)).1.1 = _
    rw [hs]
  · show (splitLoop a 0 (graphemes r.string)).1.2 = _
    rw [hs]
  · rfl
  · show (splitLoop a 0 (graphemes r.string)).2.1 = _
    rw [hs]
  · show (splitLoop a 0 (graphemes r.string)).2.2 = _
    rw [hs]

/-- The claim C6 as stated is false for `Row`s whose cached length has
drifted from the true cluster count (reachable per `c1_counterexample`):
on the row with content `"x\u{301}"` and cached `len = 2`, `split(2)`
followed by `append` reconstructs the content but yields length 1, not the
original 2 — and the receiver's length after `split(2)` is 1, not `at = 2`. -/
theorem c6_counterexample :
    2 ≤ ((Row.default.insert 0 'x').insert 1 (Char.ofNat 0x301)).len ∧
    ((Row.default.insert 0 'x').insert 1 (Char.ofNat 0x301)).len = 2 ∧
    ((((Row.default.insert 0 'x').insert 1 (Char.ofNat 0x301)).split 2).1.append
        ((((Row.default.insert 0 'x').insert 1 (Char.ofNat 0x301)).split 2).2)).string =
      ((Row.default.insert 0 'x').insert 1 (Char.ofNat 0x301)).string ∧
    ((((Row.default.insert 0 'x').insert 1 (Char.ofNat 0x301)).split 2).1.append
        ((((Row.default.insert 0 'x').insert 1 (Char.ofNat 0x301)).split 2).2)).len = 1 ∧
    ((((Row.default.insert 0 'x').insert 1 (Char.ofNat 0x301)).split 2).1).len = 1 := by
  decide

/-- Claim C6, amended: `split(at)` followed by `append` of the returned row
reconstructs the original content for every `Row` and every `at`
unconditionally; all the length clauses (reconstructed length, receiver
keeps the first `at` clusters with length `at`, returned row holds clusters
`[at, length)` with length `length - at`) hold provided the row is
well-formed, i.e. its cached `len` equals the grapheme-cluster count of its
content (`0 ≤ at ≤ length` as in the claim). -/
theorem c6_theorem (r : Row) (a : Nat) :
    ((r.split a).1.append (r.split a).2).string = r.string ∧
    (r.len = (graphemes r.string).length → a ≤ r.len →
      ((r.split a).1.append (r.split a).2).len = r.len ∧
      (r.split a).1.string = ((graphemes r.string).take a).flatten ∧
      (r.split a).1.len = a ∧
      (r.split a).2.string = ((graphemes r.string).drop a).flatten ∧
      (r.split a).2.len = r.len - a) := by
  obtain ⟨p1s, p1l, _, p2s, p2l⟩ := Row.split_proj r a
  constructor
  · show (r.split a).1.string ++ (r.split a).2.string = r.string
    rw [p1s, p2s, ← List.flatten_append, List.take_append_drop, graphemes_flatten]
  · intro hinv hle
    have hcount : a ≤ (graphemes r.string).length := hinv ▸ hle
    refine ⟨?_, p1s, ?_, p2s, ?_⟩
    · show (r.split a).1.len + (r.split a).2.len = r.len
      rw [p1l, p2l, List.length_take, List.length_drop, hinv]
      omega
    · rw [p1l, List.length_take]
      omega
    · rw [p2l, List.length_drop, hinv]

/-- Witness for `c6_theorem` at a concrete input. -/
theorem c6_witness :
    ((Row.from' ['a', 'b', 'c'] []).len = (graphemes (Row.from' ['a', 'b', 'c'] []).string).length) ∧
    (1 ≤ (Row.from' ['a', 'b', 'c'] []).len) ∧
    ((((Row.from' ['a', 'b', 'c'] []).split 1).1.append
        ((Row.from' ['a', 'b', 'c'] []).split 1).2).string = (Row.from' ['a', 'b', 'c'] []).string ∧
      ((Row.from' ['a', 'b', 'c'] []).len = (graphemes (Row.from' ['a', 'b', 'c'] []).string).length →
        1 ≤ (Row.from' ['a', 'b', 'c'] []).len →
        ((((Row.from' ['a', 'b', 'c'] []).split 1).1.append
            ((Row.from' ['a', 'b', 'c'] []).split 1).2).len = (Row.from' ['a', 'b', 'c'] []).len ∧
          (((Row.from' ['a', 'b', 'c'] []).split 1).1).string =
            ((graphemes (Row.from' ['a', 'b', 'c'] []).string).take 1).flatten ∧
          (((Row.from' ['a', 'b', 'c'] []).split 1).1).len = 1 ∧
          (((Row.from' ['a', 'b', 'c'] []).split 1).2).string =
            ((graphemes (Row.from' ['a', 'b', 'c'] []).string).drop 1).flatten ∧
          (((Row.from' ['a', 'b', 'c'] []).split 1).2).len = (Row.from' ['a', 'b', 'c'] []).len - 1))) :=
  ⟨by decide, by decide, c6_theorem (Row.from' ['a', 'b', 'c'] []) 1⟩

/-- Occurrence of `pat` in `hay` at scalar offset `b`. -/
def occursAt (hay pat : List Char) (b : Nat) : Bool := startsList pat (hay.drop b)

/-- Offset of the first occurrence of `pat` in `hay`, specified as the
least `b` (scanning `0, 1, ...`) at which `pat` occurs. -/
def firstOccurrence (hay pat : List Char) : Option Nat :=
  (List.range (hay.length + 1)).find? (occursAt hay pat)

/-- Offset of the last occurrence of `pat` in `hay`: the greatest such `b`. -/
def lastOccurrence (hay pat : List Char) : Option Nat :=
  (List.range (hay.length + 1)).reverse.find? (occursAt hay pat)

/-- Whether `q` occurs as a contiguous grapheme subsequence of `s` starting
at cluster index `i` (the matching notion used by the claim as stated). -/
def graphemeOccursAt (s q : List Char) (i : Nat) : Bool :=
  (List.range ((graphemes s).length + 1)).any
    (fun n => decide ((((graphemes s).drop i).take n).flatten = q))

theorem strFind_eq_firstOccurrence (hay pat : List Char) :
    strFind hay pat = firstOccurrence hay pat := by
  induction hay with
  | nil =>
    by_cases h : startsList pat []
    · simp [strFind, firstOccurrence, occursAt, List.range_succ, List.find?, h]
    · simp [strFind, firstOccurrence, occursAt, List.range_succ, List.find?, h]
  | cons c t ih =>
    by_cases h : startsList pat (c :: t)
    · have h0 : occursAt (c :: t) pat 0 = true := by simpa [occursAt] using h
      simp [strFind, if_pos h, firstOccurrence, List.range_succ_eq_map,
        List.find?_cons_of_pos _ h0]
    · have h0 : ¬ occursAt (c :: t) pat 0 = true := by simpa [occursAt] using h
      have hcomp : (occursAt (c :: t) pat ∘ Nat.succ) = occursAt t pat := funext fun b => by
        simp [occursAt, List.drop_succ_cons]
      simp only [strFind, if_neg h, firstOccurrence, List.length_cons]
      rw [List.range_succ_eq_map, List.find?_cons_of_neg _ h0, List.find?_map, hcomp]
      rw [ih, firstOccurrence]

theorem strRfind_eq_lastOccurrence (hay pat : List Char) :
    strRfind hay pat = lastOccurrence hay pat := by
  induction hay with
  | nil =>
    by_cases h : startsList pat []
    · simp [strRfind, lastOccurrence, occursAt, List.range_succ, List.find?, h]
    · simp [strRfind, lastOccurrence, occursAt, List.range_succ, List.find?, h]
  | cons c t ih =>
    have hrev : (List.range (t.length + 1 + 1)).reverse =
        ((List.range (t.length + 1)).reverse.map Nat.succ) ++ [0] := by
      rw [List.range_succ_eq_map, List.reverse_cons, ← List.map_reverse]
    have hcomp : (occursAt (c :: t) pat ∘ Nat.succ) = occursAt t pat := funext fun b => by
      simp [occursAt, List.drop_succ_cons]
    simp only [strRfind, lastOccurrence, List.length_cons]
    rw [hrev, List.find?_append, List.find?_map, hcomp]
    rw [ih, lastOccurrence]
    cases (List.range (t.length + 1)).reverse.find? (occursAt t pat) with
    | none =>
      by_cases h : startsList pat (c :: t) <;>
        simp [List.find?, occursAt, h]
    | some b => simp

theorem offsetLoop_eq_findIdx (bi : Nat) (os : List Nat) :
    ∀ i, offsetLoop bi i os = List.findIdx? (fun o => decide (bi = o)) os i := by
  induction os with
  | nil => intro i; simp [offsetLoop, List.findIdx?_nil]
  | cons o os ih =>
    intro i
    by_cases h : bi = o
    · simp [offsetLoop, h, List.findIdx?_cons]
    · simp [offsetLoop, h, List.findIdx?_cons, ih (i + 1)]

theorem matchOffset (o : Option Nat) (os : List Nat) (start : Nat) :
    (match o with
     | none => none
     | some bi =>
       match offsetLoop bi 0 os with
       | some gi => some (start + gi)
       | none => none) =
    (match o with
     | none => none
     | some b => (List.findIdx? (fun o' => decide (b = o')) os 0).map (fun gi => start + gi)) := by
  cases o with
  | none => rfl
  | some b =>
    show (match offsetLoop b 0 os with
          | some gi => some (start + gi)
          | none => none) =
         (List.findIdx? (fun o' => decide (b = o')) os 0).map (fun gi => start + gi)
    rw [offsetLoop_eq_findIdx b os 0]
    cases List.findIdx? (fun o' => decide (b = o')) os 0 <;> simp

/-- The claim C4 as stated is false: on the row `"x\u{301}x"` (clusters
`["x\u{301}", "x"]`), `find("x", 0, Forward)` returns grapheme index 0,
although `"x"` does not occur as a contiguous grapheme subsequence at
cluster 0 (the returned match splits the cluster `"x\u{301}"`); the first
occurrence as a contiguous grapheme subsequence is at cluster index 1. -/
theorem c4_counterexample :
    Row.find (Row.from' ['x', Char.ofNat 0x301, 'x'] []) ['x'] 0 SearchDirection.Forward = some 0 ∧
    graphemeOccursAt (Row.from' ['x', Char.ofNat 0x301, 'x'] []).string ['x'] 0 = false ∧
    graphemeOccursAt (Row.from' ['x', Char.ofNat 0x301, 'x'] []).string ['x'] 1 = true := by
  decide

/-- Claim C4, amended: `find` searches the grapheme-index window
`[from, length)` (Forward) / `[0, from)` (Backward) reconstructed as a
scalar sequence, locates the first (Forward) / last (Backward) raw
(scalar-level, not grapheme-aligned) occurrence of the query in that
window, and returns `start + i` exactly when that occurrence begins at the
start offset of the window's cluster `i`; it returns `none` when there is
no raw occurrence, or when the chosen occurrence does not begin on a
cluster boundary (even if another, boundary-aligned occurrence exists).
The returned index therefore always points at a cluster start, but the
match may still end inside a cluster. -/
theorem c4_theorem (r : Row) (q : List Char) (a : Nat) (d : SearchDirection) :
    Row.find r q a d =
      if r.len < a then none
      else
        let start := if d = SearchDirection.Forward then a else 0
        let stop := if d = SearchDirection.Forward then r.len else a
        let sub := (((graphemes r.string).drop start).take (stop - start)).flatten
        match (if d = SearchDirection.Forward then firstOccurrence sub q
               else lastOccurrence sub q) with
        | none => none
        | some b =>
          (List.findIdx? (fun o => decide (b = o)) (clusterOffsets (graphemes sub)) 0).map
            (fun gi => start + gi) := by
  unfold Row.find
  by_cases hle : r.len < a
  · simp [hle]
  · simp only [if_neg hle]
    cases d with
    | Forward =>
      simp only [reduceCtorEq, if_pos rfl, strFind_eq_firstOccurrence]
      exact matchOffset _ _ _
    | Backward =>
      have hne : ¬ (SearchDirection.Backward = SearchDirection.Forward) := by
        intro hco
        cases hco
      simp only [if_neg hne, strRfind_eq_lastOccurrence]
      exact matchOffset _ _ _

theorem splitNL_ne_nil (s : List Char) : splitNL s ≠ [] := by
  cases s with
  | nil => simp [splitNL]
  | cons c rest =>
    by_cases h : c = '\n'
    · simp [splitNL, h]
    · simp only [splitNL, if_neg h]
      cases splitNL rest <;> simp

theorem lastPiece_cons_cons (x y : List Char) (zs : List (List Char)) :
    lastPiece (x :: y :: zs) = lastPiece (y :: zs) := by
  simp [lastPiece, List.getLast?_cons_cons]

theorem splitNL_eq_singleton (s p : List Char) (h : splitNL s = [p]) :
    s = p ∧ '\n' ∉ s := by
  induction s generalizing p with
  | nil =>
    simp only [splitNL] at h
    cases h
    simp
  | cons c rest ih =>
    by_cases hc : c = '\n'
    · rw [hc] at h
      simp only [splitNL, if_pos rfl] at h
      cases hsp : splitNL rest with
      | nil => exact absurd hsp (splitNL_ne_nil rest)
      | cons q qs => rw [hsp] at h; cases h
    · simp only [splitNL, if_neg hc] at h
      cases hsp : splitNL rest with
      | nil => exact absurd hsp (splitNL_ne_nil rest)
      | cons q qs =>
        rw [hsp] at h
        cases h
        obtain ⟨h1, h2⟩ := ih q hsp
        subst h1
        refine ⟨rfl, ?_⟩
        simp only [List.mem_cons, not_or]
        exact ⟨fun hco => hc hco.symm, h2⟩

theorem splitNL_head_nil (s : List Char) (q : List Char) (qs : List (List Char))
    (h : splitNL s = [] :: q :: qs) : ∃ t, s = '\n' :: t ∧ splitNL t = q :: qs := by
  cases s with
  | nil => simp [splitNL] at h
  | cons c rest =>
    by_cases hc : c = '\n'
    · subst hc
      simp only [splitNL, if_pos rfl] at h
      injection h with h1 h2
      exact ⟨rest, rfl, h2⟩
    · simp only [splitNL, if_neg hc] at h
      cases hsp : splitNL rest with
      | nil => exact absurd hsp (splitNL_ne_nil rest)
      | cons p ps => rw [hsp] at h; cases h

/-- Whether the text contains a CRLF sequence, the case where Rust
`str::lines` drops a byte that `Document::save` does not write back. -/
def hasCRLF : List Char → Bool
  | [] => false
  | [_] => false
  | a :: b :: t => (a = '\r' && b = '\n') || hasCRLF (b :: t)

theorem hasCRLF_tail (c : Char) (rest : List Char) (h : hasCRLF (c :: rest) = false) :
    hasCRLF rest = false := by
  cases rest with
  | nil => rfl
  | cons b t =>
    simp only [hasCRLF, Bool.or_eq_false_iff] at h
    exact h.2

theorem rustLines_nil : rustLines [] = [] := by decide

theorem rustLines_newline (rest : List Char) :
    rustLines ('\n' :: rest) = [] :: rustLines rest := by
  cases hsp : splitNL rest with
  | nil => exact absurd hsp (splitNL_ne_nil rest)
  | cons p ps =>
    have hs : splitNL ('\n' :: rest) = [] :: p :: ps := by simp [splitNL, hsp]
    rw [rustLines, hs, rustLines, hsp, List.dropLast_cons₂, lastPiece_cons_cons]
    simp [stripCR]

theorem rustLines_cons_single (c : Char) (rest p : List Char) (hc : ¬ c = '\n')
    (h : splitNL rest = [p]) : rustLines (c :: rest) = [c :: p] := by
  have hs : splitNL (c :: rest) = [c :: p] := by simp [splitNL, hc, h]
  rw [rustLines, hs]
  simp [lastPiece]

theorem rustLines_cons_multi (c : Char) (rest p q : List Char) (qs : List (List Char))
    (hc : ¬ c = '\n') (h : splitNL rest = p :: q :: qs) :
    rustLines (c :: rest) =
      stripCR (c :: p) :: ((q :: qs).dropLast.map stripCR ++ lastPiece (q :: qs)) ∧
    rustLines rest = stripCR p :: ((q :: qs).dropLast.map stripCR ++ lastPiece (q :: qs)) := by
  have hs : splitNL (c :: rest) = (c :: p) :: q :: qs := by simp [splitNL, hc, h]
  constructor
  · rw [rustLines, hs, List.dropLast_cons₂, lastPiece_cons_cons]
    simp
  · rw [rustLines, h, List.dropLast_cons₂, lastPiece_cons_cons]
    simp

theorem stripCR_cons (c : Char) (p : List Char) (h : p = [] → ¬ c = '\r') :
    stripCR (c :: p) = c :: stripCR p := by
  cases p with
  | nil =>
    have := h rfl
    simp [stripCR, this]
  | cons b t =>
    by_cases hb : (b :: t).getLast? = some '\r'
    · simp [stripCR, List.getLast?_cons_cons, hb, List.dropLast_cons₂]
    · simp [stripCR, List.getLast?_cons_cons, hb]

theorem roundTrip_cons_rhs (c b : Char) (t : List Char) :
    (if (c :: b :: t : List Char) = [] then []
     else if (c :: b :: t).getLast? = some '\n' then c :: b :: t else (c :: b :: t) ++ ['\n']) =
    c :: (if (b :: t : List Char) = [] then []
          else if (b :: t).getLast? = some '\n' then b :: t else (b :: t) ++ ['\n']) := by
  by_cases hbt : (b :: t).getLast? = some '\n' <;>
    simp [List.getLast?_cons_cons, hbt]

/-- The bytes `Document::save` writes after `Document::open` of `contents`
(no intervening edits, no CRLF in the file): the original contents when
they end in a newline, nothing for an empty file, and the contents plus
one final newline otherwise. -/
theorem savedBytes_rustLines (s : List Char) (h : hasCRLF s = false) :
    ((rustLines s).map (fun l => l ++ ['\n'])).flatten =
      if s = [] then [] else if s.getLast? = some '\n' then s else s ++ ['\n'] := by
  induction s with
  | nil => simp [rustLines_nil]
  | cons c rest ih =>
    have hrest : hasCRLF rest = false := hasCRLF_tail c rest h
    by_cases hc : c = '\n'
    · subst hc
      rw [rustLines_newline]
      cases rest with
      | nil => simp [rustLines_nil]
      | cons b t =>
        simp only [List.map_cons, List.flatten_cons, List.nil_append]
        rw [ih hrest, roundTrip_cons_rhs]
        simp
    · cases hsp : splitNL rest with
      | nil => exact absurd hsp (splitNL_ne_nil rest)
      | cons p ps =>
        cases ps with
        | nil =>
          obtain ⟨hpe, hnm⟩ := splitNL_eq_singleton rest p hsp
          subst hpe
          rw [rustLines_cons_single c rest rest hc hsp]
          have hnl : ¬ ((c :: rest).getLast? = some '\n') := by
            intro hlast
            have hmem := List.mem_of_mem_getLast? hlast
            rcases List.mem_cons.1 hmem with h1 | h1
            · exact hc h1.symm
            · exact hnm h1
          simp [hnl]
        | cons q qs =>
          have hcr : p = [] → ¬ c = '\r' := by
            intro hp
            subst hp
            obtain ⟨t, ht, _⟩ := splitNL_head_nil rest q qs hsp
            subst ht
            intro hr
            subst hr
            simp [hasCRLF] at h
          obtain ⟨h1, h2⟩ := rustLines_cons_multi c rest p q qs hc hsp
          rcases hbt : rest with _ | ⟨b, t⟩
          · rw [hbt] at hsp
            simp [splitNL] at hsp
          · rw [hbt] at h1 h2 ih hrest
            have hL : ((rustLines (c :: b :: t)).map (fun l => l ++ ['\n'])).flatten
                = c :: ((rustLines (b :: t)).map (fun l => l ++ ['\n'])).flatten := by
              rw [h1, h2, stripCR_cons c p hcr]
              simp
            rw [hL, ih hrest, roundTrip_cons_rhs]

deriving instance DecidableEq for Except

/-- The claim C3 as stated is false: the file `"a\r\n"` ends in `'\n'`, but
`open` then `save` writes `"a\n"` — `str::lines` strips the `'\r'` of the
CRLF pair and `save` writes plain `'\n'` terminators, so the round trip is
not byte-identical. -/
theorem c3_counterexample :
    ((Document.open' hlId ['f'] ['a', '\r', '\n']).save true).2 =
      Except.ok (some ['a', '\n']) ∧
    (['a', '\r', '\n'] : List Char).getLast? = some '\n' ∧
    (['a', '\n'] : List Char) ≠ ['a', '\r', '\n'] := by
  decide

/-- Claim C3, amended: for every file whose contents contain no CRLF
(`"\r\n"`) sequence, `Document::open(path)` followed by `save()` with no
intervening edits writes back byte-identical contents when the contents
end in `'\n'`; when the contents are nonempty and do not end in `'\n'`,
the saved contents equal the original with a single final `'\n'` appended;
an empty file is written back empty (not as a lone newline). -/
theorem c3_theorem (hl : List Char → List Char) (fn contents : List Char)
    (h : hasCRLF contents = false) :
    ((Document.open' hl fn contents).save true).2 =
      Except.ok (some (if contents = [] then []
        else if contents.getLast? = some '\n' then contents else contents ++ ['\n'])) := by
  have hsave : ((Document.open' hl fn contents).save true).2
      = Except.ok (some (joinRows (Document.open' hl fn contents).rows)) := by
    simp [Document.save, Document.open']
  rw [hsave]
  have hrows : joinRows (Document.open' hl fn contents).rows
      = ((rustLines contents).map (fun l => l ++ ['\n'])).flatten := by
    show joinRows ((rustLines contents).map (fun l => Row.from' l [])) = _
    rw [joinRows, List.map_map]
    rfl
  rw [hrows, savedBytes_rustLines contents h]

/-- Witness for `c3_theorem` at a concrete input. -/
theorem c3_witness :
    (hasCRLF ['a', '\n'] = false) ∧
    ((Document.open' hlId ['f'] ['a', '\n']).save true).2 =
      Except.ok (some (if (['a', '\n'] : List Char) = [] then []
        else if (['a', '\n'] : List Char).getLast? = some '\n' then ['a', '\n']
        else ['a', '\n'] ++ ['\n'])) :=
  ⟨by decide, c3_theorem hlId ['f'] ['a', '\n'] (by decide)⟩

theorem splitNL_append_newline (l t : List Char) (h : '\n' ∉ l) :
    splitNL (l ++ '\n' :: t) = l :: splitNL t := by
  induction l with
  | nil => simp [splitNL]
  | cons c l' ih =>
    have hc : ¬ c = '\n' := by
      intro hco
      subst hco
      exact h (List.mem_cons_self _ _)
    have h' : '\n' ∉ l' := fun hm => h (List.mem_cons_of_mem c hm)
    simp [splitNL, hc, ih h']

theorem joinRows_cons (r : Row) (rows : List Row) :
    joinRows (r :: rows) = r.string ++ '\n' :: joinRows rows := by
  simp [joinRows]

theorem splitNL_joinRows (rows : List Row) (h : ∀ r ∈ rows, '\n' ∉ r.string) :
    splitNL (joinRows rows) = rows.map Row.string ++ [[]] := by
  induction rows with
  | nil => simp [joinRows, splitNL]
  | cons r rows ih =>
    rw [joinRows_cons, splitNL_append_newline r.string _ (h r (List.mem_cons_self r rows)),
      ih (fun x hx => h x (List.mem_cons_of_mem r hx))]
    simp

theorem lastPiece_concat_nil (xs : List (List Char)) : lastPiece (xs ++ [[]]) = [] := by
  cases xs with
  | nil => rfl
  | cons x xs' =>
    have hlast : ((x :: xs') ++ [[]] : List (List Char)).getLast? = some [] :=
      List.getLast?_concat _
    simp only [List.cons_append] at hlast ⊢
    simp [lastPiece, hlast]

theorem linesWithEndings_joinRows_length (rows : List Row)
    (h : ∀ r ∈ rows, '\n' ∉ r.string) :
    (linesWithEndings (joinRows rows)).length = rows.length := by
  rw [linesWithEndings, splitNL_joinRows rows h, List.dropLast_concat, lastPiece_concat_nil]
  simp

/-- The claim C9 as stated is false: `Document::insert` accepts any
character, and inserting `'\n'` into a row makes the reconstructed text
split into more lines than there are rows, so the very next highlight pass
gets two styled rows for one buffer row and the `assert_eq!` fails
(panics).  Concretely: open `"a\n"` (one row) and insert `'\n'` at column
1 of line 0. -/
theorem c9_counterexample :
    (Document.insert hlId (Document.open' hlId ['f'] ['a', '\n']) ⟨1, 0⟩ '\n').highlighted_rows.length = 2 ∧
    (Document.insert hlId (Document.open' hlId ['f'] ['a', '\n']) ⟨1, 0⟩ '\n').rows.length = 1 := by
  decide

/-- Claim C9, amended: in `Document::open` the highlighter returns exactly
one styled row per buffer line for every file contents (so that assertion
never fails); in the internal highlight pass run after edits it returns
exactly one styled row per buffer line provided no row's content contains
`'\n'` — which holds for all documents built by `open` and by edits that
never insert a `'\n'` character, but can be violated through
`Document::insert` of `'\n'`. -/
theorem c9_theorem :
    (∀ (hl : List Char → List Char) (fn contents : List Char),
      (Document.open' hl fn contents).highlighted_rows.length =
        (Document.open' hl fn contents).rows.length) ∧
    (∀ (hl : List Char → List Char) (d : Document),
      (∀ r ∈ d.rows, '\n' ∉ r.string) →
      (Document.highlight hl d).highlighted_rows.length = d.rows.length) := by
  constructor
  · intro hl fn contents
    show (highlight_contents hl contents).length =
      ((rustLines contents).map (fun l => Row.from' l [])).length
    rw [highlight_contents, List.length_map, List.length_map, linesWithEndings, rustLines]
    simp
  · intro hl d h
    show (highlight_contents hl (joinRows d.rows)).length = d.rows.length
    rw [highlight_contents, List.length_map]
    exact linesWithEndings_joinRows_length d.rows h

/-- Witness for `c9_theorem` (second conjunct) at a concrete input. -/
theorem c9_witness :
    (∀ r ∈ (Document.open' hlId ['f'] ['a', '\n']).rows, '\n' ∉ r.string) ∧
    (Document.highlight hlId (Document.open' hlId ['f'] ['a', '\n'])).highlighted_rows.length =
      (Document.open' hlId ['f'] ['a', '\n']).rows.length :=
  ⟨by decide, c9_theorem.2 hlId (Document.open' hlId ['f'] ['a', '\n']) (by decide)⟩

theorem Document.insert_noop (hl : List Char → List Char) (d : Document) (pos : Position)
    (c : Char) (h : d.rows.length < pos.y) : Document.insert hl d pos c = d := by
  unfold Document.insert
  rw [if_pos h]

theorem Document.insert_newline_noop (hl : List Char → List Char) (d : Document)
    (pos : Position) (h : d.rows.length < pos.y) : Document.insert_newline hl d pos = d := by
  unfold Document.insert_newline
  rw [if_pos h]

theorem Document.delete_noop (hl : List Char → List Char) (d : Document) (pos : Position)
    (h : d.rows.length ≤ pos.y) : Document.delete hl d pos = d := by
  unfold Document.delete
  rw [if_pos h]

theorem Document.insert_dirty (hl : List Char → List Char) (d : Document) (pos : Position)
    (c : Char) (h : pos.y ≤ d.rows.length) : (Document.insert hl d pos c).dirty = true := by
  unfold Document.insert
  rw [if_neg (by omega : ¬ d.rows.length < pos.y)]
  by_cases he : pos.y = d.rows.length <;> simp [he, Document.highlight]

theorem Document.insert_newline_dirty (hl : List Char → List Char) (d : Document)
    (pos : Position) (h : pos.y ≤ d.rows.length) :
    (Document.insert_newline hl d pos).dirty = true := by
  unfold Document.insert_newline
  rw [if_neg (by omega : ¬ d.rows.length < pos.y)]
  by_cases he : pos.y = d.rows.length <;> simp [he, Document.highlight]

theorem Document.delete_dirty (hl : List Char → List Char) (d : Document) (pos : Position)
    (h : pos.y < d.rows.length) : (Document.delete hl d pos).dirty = true := by
  unfold Document.delete
  rw [if_neg (by omega : ¬ d.rows.length ≤ pos.y)]
  dsimp only
  split <;> simp [Document.highlight]

/-- An editing-session operation on a `Document` (the operations the dirty
flag claim ranges over; `save`'s `Bool` is the success of the underlying
filesystem writes). -/
inductive DocOp where
  | ins : Position → Char → DocOp
  | del : Position → DocOp
  | newline : Position → DocOp
  | save : Bool → DocOp

/-- One step of an editing session carrying ghost state: the document plus
the line contents of the last successfully saved or loaded state (updated
exactly when `save` actually writes, i.e. a file name is set and the write
succeeds). -/
def stepDoc (hl : List Char → List Char) (st : Document × List (List Char)) :
    DocOp → Document × List (List Char)
  | DocOp.ins pos c => (Document.insert hl st.1 pos c, st.2)
  | DocOp.del pos => (Document.delete hl st.1 pos, st.2)
  | DocOp.newline pos => (Document.insert_newline hl st.1 pos, st.2)
  | DocOp.save ok =>
    ((st.1.save ok).1,
     if st.1.file_name ≠ none ∧ ok = true then st.1.rows.map Row.string else st.2)

/-- Run a whole editing session. -/
def runDoc (hl : List Char → List Char) (st : Document × List (List Char)) :
    List DocOp → Document × List (List Char)
  | [] => st
  | op :: ops => runDoc hl (stepDoc hl st op) ops

/-- The direction of the claimed equivalence that does hold: a clean
(`dirty = false`) document's line contents coincide with the last
saved/loaded contents. -/
def dirtyInv (st : Document × List (List Char)) : Prop :=
  st.1.dirty = false → st.1.rows.map Row.string = st.2

theorem dirtyInv_step (hl : List Char → List Char) (st : Document × List (List Char))
    (op : DocOp) (h : dirtyInv st) : dirtyInv (stepDoc hl st op) := by
  cases op with
  | ins pos c =>
    intro hd
    simp only [stepDoc] at hd ⊢
    by_cases hy : st.1.rows.length < pos.y
    · rw [Document.insert_noop hl st.1 pos c hy] at hd ⊢
      exact h hd
    · rw [Document.insert_dirty hl st.1 pos c (by omega)] at hd
      cases hd
  | del pos =>
    intro hd
    simp only [stepDoc] at hd ⊢
    by_cases hy : st.1.rows.length ≤ pos.y
    · rw [Document.delete_noop hl st.1 pos hy] at hd ⊢
      exact h hd
    · rw [Document.delete_dirty hl st.1 pos (by omega)] at hd
      cases hd
  | newline pos =>
    intro hd
    simp only [stepDoc] at hd ⊢
    by_cases hy : st.1.rows.length < pos.y
    · rw [Document.insert_newline_noop hl st.1 pos hy] at hd ⊢
      exact h hd
    · rw [Document.insert_newline_dirty hl st.1 pos (by omega)] at hd
      cases hd
  | save ok =>
    intro hd
    simp only [stepDoc] at hd ⊢
    cases hfn : st.1.file_name with
    | none =>
      have hs : (st.1.save ok).1 = st.1 := by
        cases ok <;> simp [Document.save, hfn]
      rw [hs] at hd ⊢
      rw [if_neg (by simp [hfn])]
      exact h hd
    | some fn =>
      cases ok with
      | true =>
        rw [if_pos (by simp [hfn])]
        have hs : (st.1.save true).1 = { st.1 with dirty := false } := by
          simp [Document.save, hfn]
        rw [hs]
      | false =>
        have hs : (st.1.save false).1 = st.1 := by
          simp [Document.save, hfn]
        rw [hs] at hd ⊢
        rw [if_neg (by simp)]
        exact h hd

theorem dirtyInv_run (hl : List Char → List Char) (ops : List DocOp)
    (st : Document × List (List Char)) (h : dirtyInv st) : dirtyInv (runDoc hl st ops) := by
  induction ops generalizing st with
  | nil => exact h
  | cons op ops ih => exact ih (stepDoc hl st op) (dirtyInv_step hl st op h)

/-- The claim C2 as stated is false in the "only if" direction: on a
just-opened buffer `["a"]`, `delete({line:0, column:1})` is a content
no-op (column 1 equals the last row's length, and there is no next line to
merge, so `Row::delete(1)` does nothing) — yet `Document::delete` sets
`dirty = true` before checking, so `dirty` is true while the buffer equals
the loaded state. -/
theorem c2_counterexample :
    (Document.open' hlId ['f'] ['a', '\n']).dirty = false ∧
    (Document.delete hlId (Document.open' hlId ['f'] ['a', '\n']) ⟨1, 0⟩).dirty = true ∧
    (Document.delete hlId (Document.open' hlId ['f'] ['a', '\n']) ⟨1, 0⟩).rows.map Row.string =
      (Document.open' hlId ['f'] ['a', '\n']).rows.map Row.string := by
  decide

/-- Claim C2, amended: `dirty = false` implies the in-memory line sequence
equals the last successfully saved or loaded state (the converse fails:
an in-range edit that changes nothing, e.g. a delete at a column past the
line end, still sets `dirty`).  A fresh (`default`) or just-opened buffer
has `dirty = false`; each of insert/delete/insert_newline with the line in
range sets `dirty = true` (out-of-range lines are silent no-ops); and
`save()` makes `dirty` false only when a file name is set and the write
succeeds. -/
theorem c2_theorem :
    (Document.default.dirty = false) ∧
    (∀ (hl : List Char → List Char) (fn contents : List Char),
      (Document.open' hl fn contents).dirty = false) ∧
    (∀ (hl : List Char → List Char) (d : Document) (pos : Position) (c : Char),
      pos.y ≤ d.rows.length → (Document.insert hl d pos c).dirty = true) ∧
    (∀ (hl : List Char → List Char) (d : Document) (pos : Position),
      pos.y ≤ d.rows.length → (Document.insert_newline hl d pos).dirty = true) ∧
    (∀ (hl : List Char → List Char) (d : Document) (pos : Position),
      pos.y < d.rows.length → (Document.delete hl d pos).dirty = true) ∧
    (∀ (d : Document) (ok : Bool), d.dirty = true → ((d.save ok).1).dirty = false →
      d.file_name ≠ none ∧ ok = true) ∧
    (∀ (hl : List Char → List Char) (ops : List DocOp) (st : Document × List (List Char)),
      dirtyInv st → dirtyInv (runDoc hl st ops)) := by
  refine ⟨rfl, fun _ _ _ => rfl, Document.insert_dirty, Document.insert_newline_dirty,
    Document.delete_dirty, ?_, dirtyInv_run⟩
  intro d ok hdirty hsave
  cases hfn : d.file_name with
  | none =>
    have hs : (d.save ok).1 = d := by cases ok <;> simp [Document.save, hfn]
    rw [hs] at hsave
    rw [hdirty] at hsave
    cases hsave
  | some fn =>
    cases ok with
    | true => exact ⟨by simp [hfn], rfl⟩
    | false =>
      have hs : (d.save false).1 = d := by simp [Document.save, hfn]
      rw [hs] at hsave
      rw [hdirty] at hsave
      cases hsave

instance (st : Document × List (List Char)) : Decidable (dirtyInv st) := by
  unfold dirtyInv
  infer_instance

/-- Witness for `c2_theorem` (the run-invariant conjunct) at a concrete
input. -/
theorem c2_witness :
    dirtyInv (Document.open' hlId ['f'] ['a', '\n'], [['a']]) ∧
    dirtyInv (runDoc hlId (Document.open' hlId ['f'] ['a', '\n'], [['a']])
      [DocOp.del ⟨1, 0⟩, DocOp.save true]) :=
  ⟨by decide,
    c2_theorem.2.2.2.2.2.2 hlId [DocOp.del ⟨1, 0⟩, DocOp.save true]
      (Document.open' hlId ['f'] ['a', '\n'], [['a']]) (by decide)⟩

/-- Specification of the forward buffer search, following the claim's
wording: search line `y` from column `x` onward; on a per-line miss advance
to the next line with the column reset to 0; continue through the last
line, no wrap past the end. -/
def findForwardSpec (rows : List Row) (q : List Char) (y x : Nat) : Option Position :=
  if _h : y < rows.length then
    match (rows.getD y Row.default).find q x SearchDirection.Forward with
    | some c => some ⟨c, y⟩
    | none => findForwardSpec rows q (y + 1) 0
  else none
termination_by rows.length - y
decreasing_by omega

/-- Specification of the backward buffer search, following the claim's
wording: search line `y` from column 0 up to `x`; on a miss move to the
previous line with the column reset to that line's length; continue back
to line 0, no wrap past the beginning. -/
def findBackwardSpec (rows : List Row) (q : List Char) : Nat → Nat → Option Position
  | 0, x =>
    if 0 < rows.length then
      ((rows.getD 0 Row.default).find q x SearchDirection.Backward).map (fun c => ⟨c, 0⟩)
    else none
  | y + 1, x =>
    if y + 1 < rows.length then
      match (rows.getD (y + 1) Row.default).find q x SearchDirection.Backward with
      | some c => some ⟨c, y + 1⟩
      | none => findBackwardSpec rows q y ((rows.getD y Row.default).len)
    else none

theorem findLoop_forward (rows : List Row) (q : List Char) :
    ∀ n y x, y < rows.length → n = rows.length - y →
      findLoop rows q SearchDirection.Forward n ⟨x, y⟩ = findForwardSpec rows q y x := by
  intro n
  induction n with
  | zero =>
    intro y x hy hn
    omega
  | succ n ih =>
    intro y x hy hn
    obtain ⟨row, hrow⟩ : ∃ row, rows.get? y = some row := ⟨rows.get ⟨y, hy⟩, List.get?_eq_get hy⟩
    have hgd : rows.getD y Row.default = row := by
      show (rows.get? y).getD Row.default = row
      rw [hrow]
      rfl
    rw [findForwardSpec]
    rw [dif_pos hy, hgd]
    simp only [findLoop, hrow]
    cases hfind : row.find q x SearchDirection.Forward with
    | some c => simp
    | none =>
      simp only [if_pos rfl]
      by_cases hy1 : y + 1 < rows.length
      · exact ih (y + 1) 0 hy1 (by omega)
      · have hn0 : n = 0 := by omega
        subst hn0
        rw [findForwardSpec, dif_neg hy1]
        rfl

theorem findLoop_backward (rows : List Row) (q : List Char) :
    ∀ y x, y < rows.length →
      findLoop rows q SearchDirection.Backward (y + 1) ⟨x, y⟩ = findBackwardSpec rows q y x := by
  intro y
  induction y with
  | zero =>
    intro x hy
    obtain ⟨row, hrow⟩ : ∃ row, rows.get? 0 = some row := ⟨rows.get ⟨0, hy⟩, List.get?_eq_get hy⟩
    have hgd : rows.getD 0 Row.default = row := by
      show (rows.get? 0).getD Row.default = row
      rw [hrow]
      rfl
    simp only [findLoop, hrow, findBackwardSpec, if_pos hy, hgd]
    cases hfind : row.find q x SearchDirection.Backward with
    | some c => simp
    | none => simp [findLoop]
  | succ y ih =>
    intro x hy
    obtain ⟨row, hrow⟩ : ∃ row, rows.get? (y + 1) = some row :=
      ⟨rows.get ⟨y + 1, hy⟩, List.get?_eq_get hy⟩
    have hgd : rows.getD (y + 1) Row.default = row := by
      show (rows.get? (y + 1)).getD Row.default = row
      rw [hrow]
      rfl
    simp only [findLoop, hrow, findBackwardSpec, if_pos hy, hgd]
    cases hfind : row.find q x SearchDirection.Backward with
    | some c => simp
    | none =>
      have hsub : y + 1 - 1 = y := by omega
      have hcol : ((rows.get? (y + 1 - 1)).getD Row.default).len
          = (rows.getD y Row.default).len := by
        rw [hsub]
        rfl
      simp only [reduceCtorEq, if_neg, hsub, hcol]
      exact ih ((rows.getD y Row.default).len) (by omega)

/-- Claim C5, confirmed: `Document::find` with a stale line (`from.line >=
line_count`) is an immediate no-match; otherwise it coincides with the
direction-appropriate specification recursion (per-line search via
`Row::find`, Forward advancing with column reset to 0 through the last
line, Backward retreating with the column set to the previous line's
length down to line 0, no wrap in either direction, first hit returned
immediately). -/
theorem c5_theorem (d : Document) (q : List Char) (pos : Position) (dir : SearchDirection) :
    (d.rows.length ≤ pos.y → Document.find d q pos dir = none) ∧
    (pos.y < d.rows.length →
      Document.find d q pos dir =
        match dir with
        | SearchDirection.Forward => findForwardSpec d.rows q pos.y pos.x
        | SearchDirection.Backward => findBackwardSpec d.rows q pos.y pos.x) := by
  constructor
  · intro hy
    unfold Document.find
    rw [if_pos hy]
  · intro hy
    unfold Document.find
    rw [if_neg (by omega)]
    cases dir with
    | Forward =>
      simp only [reduceCtorEq, if_pos rfl]
      exact findLoop_forward d.rows q (d.rows.length - pos.y) pos.y pos.x hy rfl
    | Backward =>
      have hne : ¬ (SearchDirection.Backward = SearchDirection.Forward) := by
        intro hco
        cases hco
      simp only [if_neg hne, Nat.sub_zero]
      exact findLoop_backward d.rows q pos.y pos.x hy

/-- Witness for `c5_theorem` at a concrete input (the in-range conjunct,
forward search over the buffer `["ab", "ba"]`). -/
theorem c5_witness :
    ((⟨2, 0⟩ : Position).y <
      (Document.open' hlId ['f'] ['a', 'b', '\n', 'b', 'a', '\n']).rows.length) ∧
    Document.find (Document.open' hlId ['f'] ['a', 'b', '\n', 'b', 'a', '\n'])
        ['b'] ⟨2, 0⟩ SearchDirection.Forward =
      match SearchDirection.Forward with
      | SearchDirection.Forward =>
        findForwardSpec (Document.open' hlId ['f'] ['a', 'b', '\n', 'b', 'a', '\n']).rows
          ['b'] (⟨2, 0⟩ : Position).y (⟨2, 0⟩ : Position).x
      | SearchDirection.Backward =>
        findBackwardSpec (Document.open' hlId ['f'] ['a', 'b', '\n', 'b', 'a', '\n']).rows
          ['b'] (⟨2, 0⟩ : Position).y (⟨2, 0⟩ : Position).x :=
  ⟨by decide,
    (c5_theorem (Document.open' hlId ['f'] ['a', 'b', '\n', 'b', 'a', '\n'])
      ['b'] ⟨2, 0⟩ SearchDirection.Forward).2 (by decide)⟩

theorem Document.highlight_rows (hl : List Char → List Char) (d : Document) :
    (Document.highlight hl d).rows = d.rows := rfl

theorem delete_merge_shape (y : Nat) : ∀ (rows : List Row), y + 1 < rows.length →
    ((rows.eraseIdx (y + 1)).set y
        ((rows.getD y Row.default).append (rows.getD (y + 1) Row.default))).map Row.string =
      (rows.map Row.string).take y ++
        [(rows.getD y Row.default).string ++ (rows.getD (y + 1) Row.default).string] ++
        (rows.map Row.string).drop (y + 2) := by
  induction y with
  | zero =>
    intro rows h
    match rows, h with
    | r0 :: r1 :: t, _ =>
      simp [Row.append]
  | succ y ih =>
    intro rows h
    match rows, h with
    | r :: rest, h =>
      have h' : y + 1 < rest.length := by
        simp only [List.length_cons] at h
        omega
      simp only [List.eraseIdx_cons_succ, List.set_cons_succ, List.getD_cons_succ,
        List.map_cons, List.take_succ_cons, List.drop_succ_cons]
      rw [ih rest h']
      simp

/-- The concrete buffer `["ab", "cd"]` from the claim's example. -/
def exampleDoc : Document :=
  ⟨[Row.from' ['a', 'b'] [], Row.from' ['c', 'd'] []], [], none, false⟩

/-- Claim C7, confirmed: for an in-range line, `Document::delete` removes
the next row and appends it to the target exactly when the column equals
the target's cached length and the target is not the last row (shrinking
the row count by one), and otherwise delegates to the target row's
`delete` (row count unchanged); in particular on `["ab", "cd"]`, deleting
at line 0 / column 2 merges to the single line `"abcd"`. -/
theorem c7_theorem (hl : List Char → List Char) (d : Document) (pos : Position) :
    (pos.y < d.rows.length →
      ((pos.x = (d.rows.getD pos.y Row.default).len ∧ pos.y < d.rows.length - 1 →
        (Document.delete hl d pos).rows.map Row.string =
          (d.rows.map Row.string).take pos.y ++
            [(d.rows.getD pos.y Row.default).string ++
              (d.rows.getD (pos.y + 1) Row.default).string] ++
            (d.rows.map Row.string).drop (pos.y + 2) ∧
        (Document.delete hl d pos).rows.length + 1 = d.rows.length) ∧
      (¬ (pos.x = (d.rows.getD pos.y Row.default).len ∧ pos.y < d.rows.length - 1) →
        (Document.delete hl d pos).rows =
          d.rows.set pos.y ((d.rows.getD pos.y Row.default).delete pos.x) ∧
        (Document.delete hl d pos).rows.length = d.rows.length))) ∧
    ((Document.delete hl exampleDoc ⟨2, 0⟩).rows.map Row.string = [['a', 'b', 'c', 'd']] ∧
      (Document.delete hl exampleDoc ⟨2, 0⟩).rows.length = 1) := by
  have hmain : ∀ (d : Document) (pos : Position), pos.y < d.rows.length →
      ((pos.x = (d.rows.getD pos.y Row.default).len ∧ pos.y < d.rows.length - 1 →
        (Document.delete hl d pos).rows.map Row.string =
          (d.rows.map Row.string).take pos.y ++
            [(d.rows.getD pos.y Row.default).string ++
              (d.rows.getD (pos.y + 1) Row.default).string] ++
            (d.rows.map Row.string).drop (pos.y + 2) ∧
        (Document.delete hl d pos).rows.length + 1 = d.rows.length) ∧
      (¬ (pos.x = (d.rows.getD pos.y Row.default).len ∧ pos.y < d.rows.length - 1) →
        (Document.delete hl d pos).rows =
          d.rows.set pos.y ((d.rows.getD pos.y Row.default).delete pos.x) ∧
        (Document.delete hl d pos).rows.length = d.rows.length)) := by
    intro d pos h
    constructor
    · intro hcond
      have hrows : (Document.delete hl d pos).rows =
          (d.rows.eraseIdx (pos.y + 1)).set pos.y
            ((d.rows.getD pos.y Row.default).append (d.rows.getD (pos.y + 1) Row.default)) := by
        unfold Document.delete
        rw [if_neg (by omega)]
        dsimp only
        rw [if_pos hcond]
        rfl
      constructor
      · rw [hrows]
        exact delete_merge_shape pos.y d.rows (by omega)
      · rw [hrows, List.length_set, List.length_eraseIdx]
        rw [if_pos (by omega : pos.y + 1 < d.rows.length)]
        omega
    · intro hcond
      have hrows : (Document.delete hl d pos).rows =
          d.rows.set pos.y ((d.rows.getD pos.y Row.default).delete pos.x) := by
        unfold Document.delete
        rw [if_neg (by omega)]
        dsimp only
        rw [if_neg hcond]
        rfl
      exact ⟨hrows, by rw [hrows, List.length_set]⟩
  refine ⟨hmain d pos, ?_⟩
  obtain ⟨h1, h2⟩ := (hmain exampleDoc ⟨2, 0⟩ (by decide)).1 (by decide)
  constructor
  · rw [h1]
    rfl
  · have hlen : exampleDoc.rows.length = 2 := rfl
    omega

/-- Witness for `c7_theorem` at a concrete input (the merge branch on the
claim's own example buffer). -/
theorem c7_witness :
    ((⟨2, 0⟩ : Position).y < exampleDoc.rows.length) ∧
    ((⟨2, 0⟩ : Position).x = (exampleDoc.rows.getD (⟨2, 0⟩ : Position).y Row.default).len ∧
      (⟨2, 0⟩ : Position).y < exampleDoc.rows.length - 1) ∧
    ((Document.delete hlId exampleDoc ⟨2, 0⟩).rows.map Row.string =
        (exampleDoc.rows.map Row.string).take (⟨2, 0⟩ : Position).y ++
          [(exampleDoc.rows.getD (⟨2, 0⟩ : Position).y Row.default).string ++
            (exampleDoc.rows.getD ((⟨2, 0⟩ : Position).y + 1) Row.default).string] ++
          (exampleDoc.rows.map Row.string).drop ((⟨2, 0⟩ : Position).y + 2) ∧
      (Document.delete hlId exampleDoc ⟨2, 0⟩).rows.length + 1 = exampleDoc.rows.length) :=
  ⟨by decide, by decide,
    ((c7_theorem hlId exampleDoc ⟨2, 0⟩).1 (by decide)).1 (by decide)⟩

/-- Claim C8, confirmed: `save()` is a no-op success when `file_name` is
unset; with a file name set and the writes succeeding it writes every
row's content followed by `'\n'`, in order (`joinRows`), and clears
`dirty`; with a write failure it returns the I/O error and leaves the
document — rows and dirty flag — untouched. -/
theorem c8_theorem (d : Document) (ok : Bool) :
    (d.file_name = none → d.save ok = (d, Except.ok none)) ∧
    (d.file_name ≠ none → ok = true →
      d.save ok = ({ d with dirty := false }, Except.ok (some (joinRows d.rows)))) ∧
    (d.file_name ≠ none → ok = false →
      d.save ok = (d, Except.error ())) := by
  refine ⟨?_, ?_, ?_⟩
  · intro h
    simp [Document.save, h]
  · intro h hok
    subst hok
    cases hfn : d.file_name with
    | none => exact absurd hfn h
    | some fn => simp [Document.save, hfn]
  · intro h hok
    subst hok
    cases hfn : d.file_name with
    | none => exact absurd hfn h
    | some fn => simp [Document.save, hfn]

/-- Witness for `c8_theorem` at a concrete input (failed write: error
returned, in-memory state unchanged, dirty still true). -/
theorem c8_witness :
    ((⟨[Row.from' ['a'] []], [], some ['f'], true⟩ : Document).file_name ≠ none) ∧
    (⟨[Row.from' ['a'] []], [], some ['f'], true⟩ : Document).save false =
      (⟨[Row.from' ['a'] []], [], some ['f'], true⟩, Except.error ()) :=
  ⟨by decide,
    (c8_theorem ⟨[Row.from' ['a'] []], [], some ['f'], true⟩ false).2.2 (by decide) rfl⟩

/-- Claim C10, confirmed: `insert_newline` at `line == line count` appends
one empty row and returns without re-highlighting, so (given the styled
rows were in sync beforehand) the stored styled-row sequence keeps its
previous length — one shorter than the new row sequence — and
`highlighted_row` for the new last line returns `none`. -/
theorem c10_theorem (hl : List Char → List Char) (d : Document) (pos : Position)
    (hy : pos.y = d.rows.length) (hsync : d.highlighted_rows.length = d.rows.length) :
    (Document.insert_newline hl d pos).rows = d.rows ++ [Row.default] ∧
    (Document.insert_newline hl d pos).highlighted_rows = d.highlighted_rows ∧
    (Document.insert_newline hl d pos).highlighted_rows.length + 1 =
      (Document.insert_newline hl d pos).rows.length ∧
    Document.highlighted_row (Document.insert_newline hl d pos) d.rows.length = none := by
  have heq : Document.insert_newline hl d pos =
      { d with dirty := true, rows := d.rows ++ [Row.default] } := by
    unfold Document.insert_newline
    rw [if_neg (by omega)]
    dsimp only
    rw [if_pos hy]
  refine ⟨by rw [heq], by rw [heq], ?_, ?_⟩
  · rw [heq]
    show d.highlighted_rows.length + 1 = (d.rows ++ [Row.default]).length
    rw [hsync, List.length_append]
    rfl
  · rw [heq]
    show Document.highlighted_row { d with dirty := true, rows := d.rows ++ [Row.default] }
      d.rows.length = none
    unfold Document.highlighted_row
    have hr : (d.rows ++ [Row.default]).get? d.rows.length = some Row.default := by
      rw [List.get?_eq_getElem?]
      exact List.getElem?_concat_length d.rows Row.default
    have hh : d.highlighted_rows.get? d.rows.length = none := by
      rw [List.get?_eq_getElem?]
      apply List.getElem?_eq_none
      omega
    rw [hr, hh]

/-- Witness for `c10_theorem` at a concrete input. -/
theorem c10_witness :
    ((⟨0, 1⟩ : Position).y = (Document.open' hlId ['f'] ['a', '\n']).rows.length) ∧
    ((Document.open' hlId ['f'] ['a', '\n']).highlighted_rows.length =
      (Document.open' hlId ['f'] ['a', '\n']).rows.length) ∧
    ((Document.insert_newline hlId (Document.open' hlId ['f'] ['a', '\n']) ⟨0, 1⟩).rows =
        (Document.open' hlId ['f'] ['a', '\n']).rows ++ [Row.default] ∧
      (Document.insert_newline hlId (Document.open' hlId ['f'] ['a', '\n']) ⟨0, 1⟩).highlighted_rows =
        (Document.open' hlId ['f'] ['a', '\n']).highlighted_rows ∧
      (Document.insert_newline hlId (Document.open' hlId ['f'] ['a', '\n']) ⟨0, 1⟩).highlighted_rows.length + 1 =
        (Document.insert_newline hlId (Document.open' hlId ['f'] ['a', '\n']) ⟨0, 1⟩).rows.length ∧
      Document.highlighted_row
        (Document.insert_newline hlId (Document.open' hlId ['f'] ['a', '\n']) ⟨0, 1⟩)
        (Document.open' hlId ['f'] ['a', '\n']).rows.length = none) :=
  ⟨by decide, by decide,
    c10_theorem hlId (Document.open' hlId ['f'] ['a', '\n']) ⟨0, 1⟩ (by decide) (by decide)⟩
